import Mathlib

/-!
Verification development for the trade-matching and aggregation core of the
trader-sync dashboard (`src/App.tsx`, `calculateSummary` and the surrounding
filter/options-view code).

Modelling decisions:
* JS numbers (`Price`, `Amount`, `Commission`, `Quantity`) are embedded as `Rat`;
  the claims under study are structural (which formula is computed, in which
  order lots are consumed), so exact rational arithmetic is the faithful level.
* JS `Date` values are embedded as `Int` (millisecond ordinals); `Date`
  comparison in the source is numeric comparison of time values.
* The `positions` object (a map from string key to array of open lots) is
  embedded as a total function `String → List OpenLot` defaulting to `[]`,
  mirroring `if (!positions[key]) positions[key] = []`.
* lodash `_.sortBy(tradeData, 'ActivityDate')` is a stable ascending sort;
  it is embedded as `List.mergeSort` (stable) on the activity date.
* lodash `_.groupBy` over string-like keys preserves first-occurrence key
  order (JS object insertion order); it is embedded as `groupByJS` below.
* React state (`summary`, updated by `setSummary`) is embedded as explicit
  previous-value passing: `updateSummary prev … = new summary if published,
  else prev` models that `calculateSummary` returns early without calling
  `setSummary` on empty input.
* Reporting fields of the summary object that no claim refers to
  (`topSymbols`, `plByMonth`) are omitted from the embedded `Summary` record.
-/

namespace TraderSync

/-- A canonical trade record as produced by the normalizer in
`handleFileUpload` (fields `Symbol`, `Transaction`, `Type`, `CallPut`,
`Quantity`, `Price`, `Amount`, `Commission`, `ActivityDate`). -/
structure Trade where
  Symbol : String
  Transaction : String
  «Type» : String
  CallPut : Option String
  Quantity : Rat
  Price : Rat
  Amount : Rat
  Commission : Rat
  ActivityDate : Int
deriving DecidableEq, Repr

/-- The grouping key `` `${trade.Symbol}-${trade.CallPut || 'stock'}` ``
(App.tsx line 147).  JS `||` falls through on the empty string as well as on
`undefined`/`null`. -/
def tradeKey (t : Trade) : String :=
  t.Symbol ++ "-" ++ (match t.CallPut with
    | some c => if c = "" then "stock" else c
    | none => "stock")

/-- An open lot: the spread copy `{...trade, remainingQuantity: trade.Quantity}`
pushed on a Buy (App.tsx lines 156-159).  `trade` holds the copied fields of
the originating Buy; `remainingQuantity` is the matcher's scratch counter. -/
structure OpenLot where
  trade : Trade
  remainingQuantity : Rat
deriving DecidableEq, Repr

/-- A closed-trade record as pushed by the matcher
(App.tsx lines 177-187 and 199-209). -/
structure ClosedTrade where
  symbol : String
  openDate : Int
  closeDate : Int
  quantity : Rat
  openPrice : Rat
  closePrice : Rat
  pl : Rat
  type : String
  callPut : Option String
deriving DecidableEq, Repr

/-- Result of matching one Sell against a key's lot queue: the queue after the
while loop, the closed trades emitted (in emission order), and the leftover
`remainingQty` when the loop exits. -/
structure SellResult where
  lots : List OpenLot
  closed : List ClosedTrade
  leftover : Rat
deriving DecidableEq, Repr

/-- The FIFO matching while loop of App.tsx lines 166-214:
`while (remainingQty > 0 && positions[key].length > 0)`, with the full-close
branch (lines 169-190: flat buy-side commission, pop the lot) and the
partial-close branch (lines 191-213: buy-side commission prorated by
`qtyToClose / openPosition.Quantity`, decrement the lot, stop). -/
def matchSell (trade : Trade) : Rat → List OpenLot → SellResult
  | remainingQty, [] => ⟨[], [], remainingQty⟩
  | remainingQty, lot :: rest =>
    if 0 < remainingQty then
      if lot.remainingQuantity ≤ remainingQty then
        let qtyToClose := lot.remainingQuantity
        let openAmount := lot.trade.Price * qtyToClose + lot.trade.Commission
        let closeAmount := trade.Price * qtyToClose -
          trade.Commission * (qtyToClose / trade.Quantity)
        let ct : ClosedTrade :=
          ⟨trade.Symbol, lot.trade.ActivityDate, trade.ActivityDate, qtyToClose,
            lot.trade.Price, trade.Price, closeAmount - openAmount,
            trade.«Type», trade.CallPut⟩
        let r := matchSell trade (remainingQty - qtyToClose) rest
        ⟨r.lots, ct :: r.closed, r.leftover⟩
      else
        let qtyToClose := remainingQty
        let openAmount := lot.trade.Price * qtyToClose +
          lot.trade.Commission * (qtyToClose / lot.trade.Quantity)
        let closeAmount := trade.Price * qtyToClose -
          trade.Commission * (qtyToClose / trade.Quantity)
        let ct : ClosedTrade :=
          ⟨trade.Symbol, lot.trade.ActivityDate, trade.ActivityDate, qtyToClose,
            lot.trade.Price, trade.Price, closeAmount - openAmount,
            trade.«Type», trade.CallPut⟩
        ⟨{ lot with remainingQuantity := lot.remainingQuantity - qtyToClose } :: rest,
          [ct], 0⟩
    else ⟨lot :: rest, [], remainingQty⟩

/-- Matcher state threaded through `sortedTrades.forEach` (App.tsx lines
142-143 plus the `console.warn` log of line 219): per-key lot queues, the
emitted closed trades, and the unmatched-sell warnings `(key, leftoverQty)`. -/
structure MatchState where
  positions : String → List OpenLot
  closedTrades : List ClosedTrade
  warnings : List (String × Rat)

def initState : MatchState := ⟨fun _ => [], [], []⟩

/-- One iteration of the `sortedTrades.forEach` body (App.tsx lines 146-222):
a Buy pushes a lot copy, a Sell runs the FIFO loop and logs a warning if
`remainingQty > 0` survives the loop, anything else falls through. -/
def processTrade (st : MatchState) (t : Trade) : MatchState :=
  let key := tradeKey t
  if t.Transaction = "Buy" then
    { st with positions := fun k =>
        if k = key then st.positions key ++ [⟨t, t.Quantity⟩] else st.positions k }
  else if t.Transaction = "Sell" then
    let r := matchSell t t.Quantity (st.positions key)
    { positions := fun k => if k = key then r.lots else st.positions k,
      closedTrades := st.closedTrades ++ r.closed,
      warnings := if 0 < r.leftover
        then st.warnings ++ [(key, r.leftover)] else st.warnings }
  else st

/-- Embedding of `_.sortBy(tradeData, 'ActivityDate')` (App.tsx line 139): stable ascending
sort by activity date. -/
def sortTrades (ts : List Trade) : List Trade :=
  ts.mergeSort (fun a b => decide (a.ActivityDate ≤ b.ActivityDate))

/-- The whole matching pass: sort, then fold the per-trade step. -/
def matchPass (ts : List Trade) : MatchState :=
  (sortTrades ts).foldl processTrade initState

/-- JS object key insertion: append the key if not yet present. -/
def insertKeyJS {β : Type} [DecidableEq β] (ks : List β) (k : β) : List β :=
  if k ∈ ks then ks else ks ++ [k]

/-- Keys of `_.groupBy f l` in first-occurrence order. -/
def keysInOrder {α β : Type} [DecidableEq β] (f : α → β) (l : List α) : List β :=
  l.foldl (fun ks x => insertKeyJS ks (f x)) []

/-- Embedding of `_.groupBy f l`: each first-occurrence key paired with the sublist of
elements carrying it. -/
def groupByJS {α β : Type} [DecidableEq β] (f : α → β) (l : List α) :
    List (β × List α) :=
  (keysInOrder f l).map (fun k => (k, l.filter (fun x => decide (f x = k))))

/-- The summary object assembled at App.tsx lines 288-298 (reporting fields no
claim touches are omitted; the `dateRange` endpoints are `Option Int` so that
the zeroed initial state's empty-string dates are representable as `none`). -/
structure Summary where
  totalPL : Rat
  winRate : Rat
  tradeCount : Nat
  avgTrade : Rat
  dateRangeStart : Option Int
  dateRangeEnd : Option Int
  plByType : List (String × Rat)
  closedTrades : List ClosedTrade
deriving DecidableEq, Repr

/-- The initial `useState` summary (App.tsx lines 15-23): all numeric fields 0,
date range empty, tables empty. -/
def initialSummary : Summary :=
  ⟨0, 0, 0, 0, none, none, [], []⟩

/-- Embedding of `calculateSummary` (App.tsx lines 135-299).  Returns `none` for the early
`if (!tradeData.length) return;` (line 136), otherwise `some` of the assembled
summary.  `fallbackPlByType` — Modelled from the spec: the caller-defined
fallback table substituted when `plByType` is empty (App.tsx line 295 uses the
free identifier `fallbackPlByType`, whose defining declaration is not among
the repository sources; per the spec it is "an external default, out of scope
here", so it is taken as a parameter). -/
def calculateSummary (fallbackPlByType : List (String × Rat))
    (tradeData : List Trade) : Option Summary :=
  if tradeData = [] then none
  else
    let sortedTrades := sortTrades tradeData
    let st := sortedTrades.foldl processTrade initState
    let closedTrades := st.closedTrades
    let totalPL := (closedTrades.map (·.pl)).sum
    let winningTrades := closedTrades.filter (fun t => decide (0 < t.pl))
    let winRate : Rat :=
      if 0 < closedTrades.length
      then ((winningTrades.length : Rat) / (closedTrades.length : Rat)) * 100
      else 0
    let plByType := (groupByJS (·.type) closedTrades).map
      (fun p => (p.1, (p.2.map (·.pl)).sum))
    some
      { totalPL := totalPL
        winRate := winRate
        tradeCount := closedTrades.length
        avgTrade := if 0 < closedTrades.length
          then totalPL / (closedTrades.length : Rat) else 0
        dateRangeStart := sortedTrades.head?.map (·.ActivityDate)
        dateRangeEnd := sortedTrades.getLast?.map (·.ActivityDate)
        plByType := if 0 < plByType.length then plByType else fallbackPlByType
        closedTrades := closedTrades }

/-- The `setSummary` publication step: a produced summary replaces the
previous one; the early return on empty input publishes nothing, so the
previous summary stays. -/
def updateSummary (prev : Summary) (fallbackPlByType : List (String × Rat))
    (tradeData : List Trade) : Summary :=
  (calculateSummary fallbackPlByType tradeData).getD prev

/-- JS `String.prototype.includes`: contiguous-substring occurrence. -/
def containsList (needle : List Char) : List Char → Bool
  | [] => List.isPrefixOf needle []
  | h :: hs => List.isPrefixOf needle (h :: hs) || containsList needle hs

def jsIncludes (haystack needle : String) : Bool :=
  containsList needle.toList haystack.toList

/-- The filter stage of the `useEffect` (App.tsx lines 96-133): a
case-insensitive symbol-substring filter when `filterSymbol` is non-empty, and
an activity-date cutoff when the timeframe is not `all`.  The cutoff date is
computed from the external clock, so it is a parameter here: `some c` models a
non-`all` timeframe with cutoff `c`, `none` models `all`. -/
def applyFilters (filterSymbol : String) (cutoff : Option Int)
    (trades : List Trade) : List Trade :=
  let ts1 := if filterSymbol ≠ ""
    then trades.filter (fun t => jsIncludes t.Symbol.toLower filterSymbol.toLower)
    else trades
  match cutoff with
  | some c => ts1.filter (fun t => decide (c ≤ t.ActivityDate))
  | none => ts1

/-- The options-view qualification (App.tsx lines 529-531): closed trades whose
`callPut` is CALL or PUT. -/
def optionsTrades (closedTrades : List ClosedTrade) : List ClosedTrade :=
  closedTrades.filter (fun t =>
    decide (t.callPut = some "CALL" ∨ t.callPut = some "PUT"))

/-- One row of the call-vs-put performance table (App.tsx lines 549-557). -/
structure CallPutPerf where
  type : Option String
  pl : Rat
  count : Nat
  winRate : Rat
deriving DecidableEq, Repr

/-- Embedding of `callPutPerformance` (App.tsx lines 549-557): group the qualifying closed
trades by `callPut`; per group sum `pl`, count, and compute
`winRate = winners / count * 100` with no guard on `count`. -/
def callPutPerformance (closedTrades : List ClosedTrade) : List CallPutPerf :=
  (groupByJS (·.callPut) (optionsTrades closedTrades)).map (fun p =>
    ⟨p.1, (p.2.map (·.pl)).sum, p.2.length,
      ((p.2.filter (fun t => decide (0 < t.pl))).length : Rat) /
        (p.2.length : Rat) * 100⟩)

/-! ### Spec-side definitions for the commission-term refinement

These three formulas and `matchSellSpec` are written from the wording of the
specification (§4.2, step 4), to be compared against the source-derived
`matchSell`. -/

/-- Spec §4.2, full close: `openAmount = OpenLot.price * qty + OpenLot.commission`
(commission charged in full to this lot regardless of whether the lot itself
was split across earlier sells). -/
def specOpenAmountFull (lot : OpenLot) (qty : Rat) : Rat :=
  lot.trade.Price * qty + lot.trade.Commission

/-- Spec §4.2, partial close:
`openAmount = OpenLot.price * qty + OpenLot.commission * (qty / OpenLot.originalQuantity)`
(buy-side commission prorated by the fraction of the original lot quantity
consumed; the original quantity is the wrapped Buy trade's quantity). -/
def specOpenAmountPartial (lot : OpenLot) (qty : Rat) : Rat :=
  lot.trade.Price * qty + lot.trade.Commission * (qty / lot.trade.Quantity)

/-- Spec §4.2, both branches:
`closeAmount = trade.price * qty - trade.commission * (qty / trade.quantity)`
(sell-side commission prorated by the fraction of the sell's total quantity). -/
def specCloseAmount (t : Trade) (qty : Rat) : Rat :=
  t.Price * qty - t.Commission * (qty / t.Quantity)

/-- Spec §4.2, step 4: while `remainingToSell > 0` and the queue is non-empty,
peek the oldest lot; on a full close (`remainingQuantity ≤ remainingToSell`)
emit with the full-close open amount, decrement `remainingToSell`, pop; on a
partial close emit with the prorated open amount, decrement the lot's
remaining quantity, and set `remainingToSell = 0`.  `pl = closeAmount -
openAmount` in both branches. -/
def matchSellSpec (t : Trade) : Rat → List OpenLot → SellResult
  | remainingToSell, [] => ⟨[], [], remainingToSell⟩
  | remainingToSell, lot :: queue =>
    if 0 < remainingToSell then
      if lot.remainingQuantity ≤ remainingToSell then
        let qty := lot.remainingQuantity
        let ct : ClosedTrade :=
          ⟨t.Symbol, lot.trade.ActivityDate, t.ActivityDate, qty,
            lot.trade.Price, t.Price,
            specCloseAmount t qty - specOpenAmountFull lot qty,
            t.«Type», t.CallPut⟩
        let r := matchSellSpec t (remainingToSell - qty) queue
        ⟨r.lots, ct :: r.closed, r.leftover⟩
      else
        let qty := remainingToSell
        let ct : ClosedTrade :=
          ⟨t.Symbol, lot.trade.ActivityDate, t.ActivityDate, qty,
            lot.trade.Price, t.Price,
            specCloseAmount t qty - specOpenAmountPartial lot qty,
            t.«Type», t.CallPut⟩
        ⟨{ lot with remainingQuantity := lot.remainingQuantity - qty } :: queue,
          [ct], 0⟩
    else ⟨lot :: queue, [], remainingToSell⟩

/-! ### Concrete example inputs used by witnesses and counterexamples -/

/-- Buy AAPL 10 @ 100, commission 1, day 1 (the spec's end-to-end example). -/
def exBuy : Trade := ⟨"AAPL", "Buy", "Stock", none, 10, 100, 0, 1, 1⟩

/-- Sell AAPL 10 @ 110, commission 1, day 2. -/
def exSell : Trade := ⟨"AAPL", "Sell", "Stock", none, 10, 110, 0, 1, 2⟩

/-- The single closed trade produced by `[exBuy, exSell]`: pl = 98. -/
def exClosed : ClosedTrade := ⟨"AAPL", 1, 2, 10, 100, 110, 98, "Stock", none⟩

/-- The summary produced from `[exBuy, exSell]`. -/
def exSummary : Summary :=
  ⟨98, 100, 1, 98, some 1, some 2, [("Stock", 98)], [exClosed]⟩

/-- A Buy lot of 10 @ 100 with commission 2 (for the proration scenario). -/
def prB : Trade := ⟨"A", "Buy", "S", none, 10, 100, 0, 2, 1⟩

/-- First Sell of 5 @ 110, commission 0 (partial close of `prB`). -/
def prS1 : Trade := ⟨"A", "Sell", "S", none, 5, 110, 0, 0, 2⟩

/-- Second Sell of 5 @ 110, commission 0 (full close of the remainder). -/
def prS2 : Trade := ⟨"A", "Sell", "S", none, 5, 110, 0, 0, 3⟩

/-- A trade with the normalizer's `Unknown` transaction default, dated
earliest. -/
def uEx : Trade := ⟨"AAPL", "Unknown", "Stock", none, 10, 100, 0, 0, 1⟩

/-- A Buy dated after `uEx`. -/
def bEx : Trade := ⟨"AAPL", "Buy", "Stock", none, 10, 100, 0, 0, 2⟩

/-- A Sell dated after `bEx`. -/
def sEx : Trade := ⟨"AAPL", "Sell", "Stock", none, 10, 110, 0, 0, 3⟩

/-- Earliest trade of the C4 counterexample population (symbol AAA, day 1). -/
def tAex : Trade := ⟨"AAA", "Buy", "Stock", none, 1, 1, 0, 0, 1⟩

/-- Latest trade of the C4 counterexample population (symbol BBB, day 5). -/
def tBex : Trade := ⟨"BBB", "Buy", "Stock", none, 1, 1, 0, 0, 5⟩

/-- A previously published non-zero summary (for the empty-input behavior). -/
def prevEx : Summary := ⟨7, 0, 0, 0, none, none, [], []⟩

/-- The summary produced from the single-Buy population `[tAex]`. -/
def exSummaryA : Summary := ⟨0, 0, 0, 0, some 1, some 1, [], []⟩

/-- A concrete options closed trade (CALL, winning). -/
def exOptClosed : ClosedTrade :=
  ⟨"AAPL230101C150", 1, 2, 1, 1, 2, 5, "Option", some "CALL"⟩

/-! ### Theorems -/

/-- A list already in chronological order is left unchanged by the stable
sort (used to evaluate the pipeline on concrete, pre-sorted inputs, since
`List.mergeSort` is defined by well-founded recursion and does not reduce
definitionally). -/
theorem sortTrades_of_sorted {ts : List Trade}
    (h : ts.Pairwise (fun a b => a.ActivityDate ≤ b.ActivityDate)) :
    sortTrades ts = ts := by
  apply List.mergeSort_of_sorted
  exact h.imp (fun hab => by simpa using hab)

theorem matchPass_of_sorted {ts : List Trade}
    (h : ts.Pairwise (fun a b => a.ActivityDate ≤ b.ActivityDate)) :
    matchPass ts = ts.foldl processTrade initState := by
  simp only [matchPass]
  rw [sortTrades_of_sorted h]

/-- C2: the per-match commission terms are exactly the asymmetric formulas of
the spec: on a full close the lot's entire commission is charged (not
prorated, even when the lot was partially consumed earlier), on a partial
close the buy-side commission is prorated by `qty / originalQuantity`, and in
both branches the sell-side commission is prorated by `qty / sellQuantity`
with `pl = closeAmount - openAmount`.  Stated as: the source matching loop
coincides with the loop written from the spec's formulas, on all inputs; and
on the concrete partial-then-full scenario (lot of 10 with commission 2, two
sells of 5) the emitted P/Ls are 49 (prorated commission 1) then 48 (full
commission 2 despite the earlier partial consumption). -/
theorem commission_terms_match_spec :
    (∀ (t : Trade) (rq : Rat) (lots : List OpenLot),
        matchSell t rq lots = matchSellSpec t rq lots) ∧
    (matchPass [prB, prS1, prS2]).closedTrades.map (·.pl) = [49, 48] := by
  constructor
  · intro t rq lots
    induction lots generalizing rq with
    | nil => rfl
    | cons lot rest ih =>
      simp only [matchSell, matchSellSpec, specCloseAmount, specOpenAmountFull,
        specOpenAmountPartial, ih]
  · rw [matchPass_of_sorted (by decide)]
    simp only [List.foldl]
    simp only [processTrade, tradeKey, initState, prB, prS1, prS2]
    simp only [String.reduceEq, reduceIte, List.nil_append]
    norm_num [matchSell]

/-- C5 counterexample: on the empty input, `calculateSummary` publishes no
summary at all (it returns early), so a previously published non-zero summary
stays in place; in particular the result is not the zeroed summary the claim
describes. -/
theorem empty_input_counterexample :
    calculateSummary [] ([] : List Trade) = none ∧
    updateSummary prevEx [] [] = prevEx ∧ prevEx ≠ initialSummary := by
  refine ⟨rfl, rfl, by decide⟩

/-- C5 (amended): on the empty input `calculateSummary` returns early without
error and publishes nothing, so the previously published summary remains in
place; the initially published summary is the zeroed one (all numeric fields
0, empty date range, empty tables). -/
theorem empty_input_keeps_previous_summary (prev : Summary)
    (fb : List (String × Rat)) :
    calculateSummary fb ([] : List Trade) = none ∧
    updateSummary prev fb [] = prev ∧
    initialSummary.totalPL = 0 ∧ initialSummary.winRate = 0 ∧
    initialSummary.tradeCount = 0 ∧ initialSummary.avgTrade = 0 ∧
    initialSummary.dateRangeStart = none ∧ initialSummary.dateRangeEnd = none ∧
    initialSummary.plByType = [] ∧ initialSummary.closedTrades = [] :=
  ⟨rfl, rfl, rfl, rfl, rfl, rfl, rfl, rfl, rfl, rfl⟩

/-- C7: processing a Sell appends exactly the matched closed trades, and when
the loop exits with leftover quantity the excess yields no closed trade and is
recorded only as a warning naming the key and the leftover; in particular a
Sell whose key has no queued lot at all emits nothing, leaves every queue and
the closed-trade list untouched, and records a warning carrying its full
(unconsumed) quantity. -/
theorem unmatched_sell_is_warning (st : MatchState) (t : Trade)
    (hsell : t.Transaction = "Sell") :
    ((processTrade st t).closedTrades =
        st.closedTrades ++ (matchSell t t.Quantity (st.positions (tradeKey t))).closed ∧
      (processTrade st t).warnings =
        (if 0 < (matchSell t t.Quantity (st.positions (tradeKey t))).leftover
          then st.warnings ++
            [(tradeKey t, (matchSell t t.Quantity (st.positions (tradeKey t))).leftover)]
          else st.warnings)) ∧
    (st.positions (tradeKey t) = [] →
      (matchSell t t.Quantity (st.positions (tradeKey t))).closed = [] ∧
      (matchSell t t.Quantity (st.positions (tradeKey t))).leftover = t.Quantity ∧
      (processTrade st t).closedTrades = st.closedTrades ∧
      (0 < t.Quantity →
        (processTrade st t).warnings = st.warnings ++ [(tradeKey t, t.Quantity)]) ∧
      (processTrade st t).positions = st.positions) := by
  have hne : ¬ t.Transaction = "Buy" := by rw [hsell]; decide
  constructor
  · constructor
    · simp only [processTrade, if_neg hne, if_pos hsell]
    · simp only [processTrade, if_neg hne, if_pos hsell]
  · intro hempty
    rw [hempty]
    refine ⟨rfl, rfl, ?_, ?_, ?_⟩
    · simp only [processTrade, if_neg hne, if_pos hsell, hempty, matchSell,
        List.append_nil]
    · intro hq
      simp only [processTrade, if_neg hne, if_pos hsell, hempty, matchSell,
        if_pos hq]
    · funext k
      simp only [processTrade, if_neg hne, if_pos hsell, hempty, matchSell]
      by_cases hk : k = tradeKey t
      · rw [if_pos hk, hk, hempty]
      · rw [if_neg hk]

/-- C7 witness: a Sell with no prior Buy for its key. -/
theorem unmatched_sell_is_warning_witness :
    (matchSell sEx sEx.Quantity (initState.positions (tradeKey sEx))).closed = [] ∧
    (processTrade initState sEx).warnings = [(tradeKey sEx, 10)] := by
  have h := (unmatched_sell_is_warning initState sEx rfl).2 rfl
  exact ⟨h.1, by rw [h.2.2.2.1 (by decide)]; rfl⟩

/-- C10: a trade whose `Transaction` is neither `Buy` nor `Sell` (such as the
normalizer's `Unknown` default) leaves the matcher state entirely unchanged —
no lot pushed, no lot consumed, nothing emitted — yet it participates in the
chronological sort, so on the concrete input `[uEx, bEx, sEx]` the summary's
date-range start is the Unknown trade's (earliest) date while only one closed
trade (from the Buy/Sell pair) exists. -/
theorem unknown_transaction_skipped :
    (∀ (st : MatchState) (t : Trade),
        t.Transaction ≠ "Buy" → t.Transaction ≠ "Sell" → processTrade st t = st) ∧
    (calculateSummary [] [uEx, bEx, sEx]).map
        (fun s => (s.dateRangeStart, s.closedTrades.length)) = some (some 1, 1) := by
  constructor
  · intro st t hb hs
    simp only [processTrade, if_neg hb, if_neg hs]
  · have hne : ([uEx, bEx, sEx] : List Trade) ≠ [] := by decide
    simp only [calculateSummary, if_neg hne, matchPass]
    rw [sortTrades_of_sorted (by decide)]
    simp only [List.foldl]
    simp only [processTrade, tradeKey, initState, uEx, bEx, sEx]
    simp only [String.reduceEq, reduceIte, List.nil_append]
    norm_num [matchSell, groupByJS, keysInOrder, insertKeyJS]

/-- C10 witness: the skip clause applied to the concrete Unknown trade. -/
theorem unknown_transaction_skipped_witness :
    processTrade initState uEx = initState :=
  unknown_transaction_skipped.1 initState uEx (by decide) (by decide)

/-- C6: in every published summary, the win rate is the count of closed trades
with strictly positive P/L divided by the closed-trade count, times 100, and 0
when there are no closed trades; in particular a closed-trade list whose every
entry has zero P/L yields win rate 0 (zero counts as non-winning). -/
theorem winRate_formula (fb : List (String × Rat)) (ts : List Trade) (s : Summary)
    (h : calculateSummary fb ts = some s) :
    s.winRate = (if 0 < s.closedTrades.length
      then ((s.closedTrades.filter (fun ct => decide (0 < ct.pl))).length : Rat) /
        (s.closedTrades.length : Rat) * 100
      else 0) ∧
    ((∀ ct ∈ s.closedTrades, ct.pl = 0) → s.winRate = 0) := by
  by_cases hts : ts = []
  · rw [hts] at h
    exact absurd h (by simp [calculateSummary])
  · simp only [calculateSummary, if_neg hts, Option.some.injEq] at h
    subst h
    refine ⟨rfl, ?_⟩
    intro hz
    have hfil : (List.foldl processTrade initState (sortTrades ts)).closedTrades.filter
        (fun ct => decide (0 < ct.pl)) = [] := by
      rw [List.filter_eq_nil_iff]
      intro ct hct
      simp [hz ct hct]
    by_cases hlen : 0 < (List.foldl processTrade initState (sortTrades ts)).closedTrades.length
    · simp [hfil, hlen]
    · simp [hlen]

/-- C6 witness: the win-rate clause evaluated on the summary of the concrete
Buy/Sell pair, whose single closed trade gives win rate 100. -/
theorem winRate_formula_witness :
    exSummary.winRate = (if 0 < exSummary.closedTrades.length
      then ((exSummary.closedTrades.filter (fun ct => decide (0 < ct.pl))).length : Rat) /
        (exSummary.closedTrades.length : Rat) * 100
      else 0) :=
  (winRate_formula [] [exBuy, exSell] exSummary (by
    have hne : ([exBuy, exSell] : List Trade) ≠ [] := by decide
    simp only [calculateSummary, if_neg hne, matchPass]
    rw [sortTrades_of_sorted (by decide)]
    simp only [List.foldl]
    simp only [processTrade, tradeKey, initState, exBuy, exSell]
    simp only [String.reduceEq, reduceIte, List.nil_append]
    norm_num [matchSell, exSummary, exClosed, groupByJS, keysInOrder, insertKeyJS])).1

/-- A fold over Buy-only trades never appends to the closed-trade list. -/
theorem foldl_buys_no_closed (l : List Trade) (st : MatchState)
    (hb : ∀ t ∈ l, t.Transaction = "Buy") :
    (l.foldl processTrade st).closedTrades = st.closedTrades := by
  induction l generalizing st with
  | nil => rfl
  | cons a l ih =>
    rw [List.foldl_cons]
    rw [ih _ (fun t ht => hb t (List.mem_cons_of_mem a ht))]
    have ha := hb a (List.mem_cons_self a l)
    simp only [processTrade, if_pos ha]

/-- C3: on a non-empty input whose matching pass yields no closed trades (for
example, only Buy transactions), the pipeline still produces a summary (no
fatal error), and its `plByType` is the caller-supplied fallback table rather
than the empty list. -/
theorem plByType_fallback (fb : List (String × Rat)) (ts : List Trade)
    (hne : ts ≠ []) :
    ((∀ t ∈ ts, t.Transaction = "Buy") → (matchPass ts).closedTrades = []) ∧
    ((matchPass ts).closedTrades = [] →
      calculateSummary fb ts = some
        { totalPL := 0, winRate := 0, tradeCount := 0, avgTrade := 0,
          dateRangeStart := (sortTrades ts).head?.map (·.ActivityDate),
          dateRangeEnd := (sortTrades ts).getLast?.map (·.ActivityDate),
          plByType := fb, closedTrades := [] }) := by
  constructor
  · intro hb
    have hmem : ∀ t ∈ sortTrades ts, t.Transaction = "Buy" := by
      intro t ht
      exact hb t (by simpa [sortTrades, List.mem_mergeSort] using ht)
    simpa only [matchPass, initState] using
      foldl_buys_no_closed (sortTrades ts) initState hmem
  · intro hcl
    simp only [matchPass] at hcl
    simp only [calculateSummary, if_neg hne, hcl]
    norm_num [groupByJS, keysInOrder]

/-- C3 witness: a single-Buy input with fallback table `[("F", 7)]`. -/
theorem plByType_fallback_witness :
    calculateSummary [("F", 7)] [tAex] = some
      { totalPL := 0, winRate := 0, tradeCount := 0, avgTrade := 0,
        dateRangeStart := (sortTrades [tAex]).head?.map (·.ActivityDate),
        dateRangeEnd := (sortTrades [tAex]).getLast?.map (·.ActivityDate),
        plByType := [("F", 7)], closedTrades := [] } :=
  (plByType_fallback [("F", 7)] [tAex] (by decide)).2 (by
    rw [matchPass_of_sorted (by decide)]
    simp only [List.foldl]
    simp only [processTrade, tradeKey, initState, tAex]
    norm_num)

/-- Keys accumulated by the JS-object fold all either come from the
accumulator or have an occurrence in the traversed list. -/
theorem keysInOrder_aux {α β : Type} [DecidableEq β] (f : α → β) (l : List α)
    (acc : List β) (k : β)
    (hk : k ∈ l.foldl (fun ks x => insertKeyJS ks (f x)) acc) :
    k ∈ acc ∨ ∃ x ∈ l, f x = k := by
  induction l generalizing acc with
  | nil => exact Or.inl hk
  | cons a l ih =>
    rw [List.foldl_cons] at hk
    rcases ih (insertKeyJS acc (f a)) hk with h | h
    · unfold insertKeyJS at h
      by_cases hfa : f a ∈ acc
      · rw [if_pos hfa] at h
        exact Or.inl h
      · rw [if_neg hfa] at h
        rcases List.mem_append.mp h with h' | h'
        · exact Or.inl h'
        · exact Or.inr ⟨a, List.mem_cons_self a l, (List.mem_singleton.mp h').symm⟩
    · rcases h with ⟨x, hx, hfx⟩
      exact Or.inr ⟨x, List.mem_cons_of_mem a hx, hfx⟩

/-- Every grouping key has an occurrence in the grouped list. -/
theorem mem_keysInOrder {α β : Type} [DecidableEq β] (f : α → β) (l : List α)
    (k : β) (hk : k ∈ keysInOrder f l) : ∃ x ∈ l, f x = k := by
  simp only [keysInOrder] at hk
  rcases keysInOrder_aux f l [] k hk with h | h
  · cases h
  · exact h

/-- C9: every group in the call-vs-put performance table is non-empty by
construction (its key is a first occurrence in the qualifying closed-trade
list), so the `winRate` division's divisor `count` is never zero. -/
theorem callPut_groups_nonempty (cts : List ClosedTrade) (e : CallPutPerf)
    (he : e ∈ callPutPerformance cts) : 0 < e.count ∧ (e.count : Rat) ≠ 0 := by
  simp only [callPutPerformance, groupByJS, List.mem_map] at he
  obtain ⟨p, hp, hpe⟩ := he
  obtain ⟨k, hk, hkp⟩ := hp
  obtain ⟨x, hx, hfx⟩ := mem_keysInOrder (fun y => y.callPut) (optionsTrades cts) k hk
  subst hkp
  subst hpe
  have hxf : x ∈ (optionsTrades cts).filter (fun y => decide (y.callPut = k)) :=
    List.mem_filter.mpr ⟨hx, by simp [hfx]⟩
  have hpos : 0 < ((optionsTrades cts).filter (fun y => decide (y.callPut = k))).length :=
    List.length_pos.mpr (List.ne_nil_of_mem hxf)
  exact ⟨hpos, by exact_mod_cast Nat.pos_iff_ne_zero.mp hpos⟩

/-- C9 witness: the CALL group of a one-element options closed-trade list. -/
theorem callPut_groups_nonempty_witness :
    0 < (⟨some "CALL", 5, 1, 100⟩ : CallPutPerf).count :=
  (callPut_groups_nonempty [exOptClosed] ⟨some "CALL", 5, 1, 100⟩ (by
    norm_num [callPutPerformance, groupByJS, keysInOrder, insertKeyJS,
      optionsTrades, exOptClosed, List.filter])).1

/-- The matching loop never invents lots: every lot in its output queue wraps
the trade of some lot already in the input queue (the partial-close update
touches only `remainingQuantity`). -/
theorem matchSell_lots_trades (t : Trade) (rq : Rat) (lots : List OpenLot) :
    ∀ lot ∈ (matchSell t rq lots).lots, lot.trade ∈ lots.map OpenLot.trade := by
  induction lots generalizing rq with
  | nil =>
    intro lot h
    simp only [matchSell] at h
    cases h
  | cons l0 rest ih =>
    intro lot h
    simp only [matchSell] at h
    by_cases h0 : 0 < rq
    · rw [if_pos h0] at h
      by_cases h1 : l0.remainingQuantity ≤ rq
      · rw [if_pos h1] at h
        dsimp at h
        exact List.mem_cons_of_mem _ (ih (rq - l0.remainingQuantity) lot h)
      · rw [if_neg h1] at h
        dsimp at h
        rcases List.mem_cons.mp h with rfl | hrest
        · exact List.mem_cons_self _ _
        · exact List.mem_cons_of_mem _ (List.mem_map_of_mem OpenLot.trade hrest)
    · rw [if_neg h0] at h
      dsimp at h
      exact List.mem_map_of_mem OpenLot.trade h

/-- One matcher step preserves the invariant that every queued lot wraps a
trade drawn (unmodified) from the population `S`. -/
theorem processTrade_positions_trades (st : MatchState) (t : Trade)
    (S : List Trade)
    (hst : ∀ k lot, lot ∈ st.positions k → lot.trade ∈ S) (htS : t ∈ S) :
    ∀ k lot, lot ∈ (processTrade st t).positions k → lot.trade ∈ S := by
  intro k lot h
  simp only [processTrade] at h
  by_cases hbuy : t.Transaction = "Buy"
  · rw [if_pos hbuy] at h
    dsimp at h
    by_cases hk : k = tradeKey t
    · rw [if_pos hk] at h
      rcases List.mem_append.mp h with h' | h'
      · exact hst _ _ h'
      · rw [List.mem_singleton] at h'
        subst h'
        exact htS
    · rw [if_neg hk] at h
      exact hst _ _ h
  · rw [if_neg hbuy] at h
    by_cases hsell : t.Transaction = "Sell"
    · rw [if_pos hsell] at h
      dsimp at h
      by_cases hk : k = tradeKey t
      · rw [if_pos hk] at h
        have h2 := matchSell_lots_trades t t.Quantity (st.positions (tradeKey t)) lot h
        rcases List.mem_map.mp h2 with ⟨lot0, hlot0, htr⟩
        rw [← htr]
        exact hst _ _ hlot0
      · rw [if_neg hk] at h
        exact hst _ _ h
    · rw [if_neg hsell] at h
      exact hst _ _ h

/-- The lot-wrapping invariant holds across the whole fold. -/
theorem foldl_positions_trades (l : List Trade) (st : MatchState)
    (S : List Trade)
    (hst : ∀ k lot, lot ∈ st.positions k → lot.trade ∈ S)
    (hl : ∀ t ∈ l, t ∈ S) :
    ∀ k lot, lot ∈ (l.foldl processTrade st).positions k → lot.trade ∈ S := by
  induction l generalizing st with
  | nil => exact hst
  | cons a l ih =>
    rw [List.foldl_cons]
    exact ih (processTrade st a)
      (processTrade_positions_trades st a S hst (hl a (List.mem_cons_self a l)))
      (fun t ht => hl t (List.mem_cons_of_mem a ht))

/-- C8: the matcher's scratch bookkeeping never mutates an input trade.  In
this pure embedding of the JS object semantics (the matcher only ever spreads
a trade into a fresh lot record and decrements that lot's own
`remainingQuantity` counter), this is the statement that after the whole
matching pass every lot still wraps an input trade with all fields intact. -/
theorem matcher_scratch_wraps_input (ts : List Trade) (k : String)
    (lot : OpenLot) (hmem : lot ∈ (matchPass ts).positions k) :
    lot.trade ∈ ts := by
  simp only [matchPass] at hmem
  exact foldl_positions_trades (sortTrades ts) initState ts
    (by intro k' lot' h'; cases h')
    (fun t ht => by simpa [sortTrades, List.mem_mergeSort] using ht) k lot hmem

/-- C8 witness: the lot left open by a single Buy wraps that Buy unchanged. -/
theorem matcher_scratch_wraps_input_witness :
    (OpenLot.mk bEx 10).trade ∈ [bEx] :=
  matcher_scratch_wraps_input [bEx] (tradeKey bEx) ⟨bEx, 10⟩ (by
    rw [matchPass_of_sorted (by decide)]
    simp only [List.foldl]
    simp only [processTrade, tradeKey, initState, bEx]
    norm_num)

/-- C1: for any symbol/option-class key, commissions, amounts and
chronologically ordered dates, the input Buy(10 @ 10), Buy(10 @ 12),
Sell(15 @ 15) produces exactly two closed trades, in emission order: first the
oldest lot closed fully (quantity 10 at open price 10), then the second lot
closed partially (quantity 5 at open price 12). -/
theorem fifo_oldest_lot_first (s ty : String) (c : Option String)
    (d1 d2 d3 : Int) (a1 a2 a3 cm1 cm2 cm3 : Rat)
    (h12 : d1 ≤ d2) (h23 : d2 ≤ d3) :
    (matchPass [⟨s, "Buy", ty, c, 10, 10, a1, cm1, d1⟩,
                ⟨s, "Buy", ty, c, 10, 12, a2, cm2, d2⟩,
                ⟨s, "Sell", ty, c, 15, 15, a3, cm3, d3⟩]).closedTrades =
      [⟨s, d1, d3, 10, 10, 15, (15 * 10 - cm3 * (10 / 15)) - (10 * 10 + cm1), ty, c⟩,
       ⟨s, d2, d3, 5, 12, 15, (15 * 5 - cm3 * (5 / 15)) - (12 * 5 + cm2 * (5 / 10)), ty, c⟩] := by
  rw [matchPass_of_sorted ?hs]
  case hs =>
    refine List.Pairwise.cons ?_ (List.Pairwise.cons ?_
      (List.Pairwise.cons ?_ List.Pairwise.nil))
    · intro b hb
      rcases List.mem_cons.mp hb with rfl | hb
      · exact h12
      rcases List.mem_cons.mp hb with rfl | hb
      · exact le_trans h12 h23
      · cases hb
    · intro b hb
      rcases List.mem_cons.mp hb with rfl | hb
      · exact h23
      · cases hb
    · intro b hb
      cases hb
  simp only [List.foldl]
  simp only [processTrade, tradeKey, initState]
  simp only [String.reduceEq, reduceIte, List.nil_append, eq_self_iff_true, if_true]
  norm_num [matchSell]

/-- C1 witness: the FIFO scenario at concrete dates 1, 2, 3 and commissions
1, 2, 3. -/
theorem fifo_oldest_lot_first_witness :
    (matchPass [⟨"AAPL", "Buy", "Stock", none, 10, 10, 0, 1, 1⟩,
                ⟨"AAPL", "Buy", "Stock", none, 10, 12, 0, 2, 2⟩,
                ⟨"AAPL", "Sell", "Stock", none, 15, 15, 0, 3, 3⟩]).closedTrades =
      [⟨"AAPL", 1, 3, 10, 10, 15, (15 * 10 - 3 * (10 / 15)) - (10 * 10 + 1), "Stock", none⟩,
       ⟨"AAPL", 2, 3, 5, 12, 15, (15 * 5 - 3 * (5 / 15)) - (12 * 5 + 2 * (5 / 10)), "Stock", none⟩] :=
  fifo_oldest_lot_first "AAPL" "Stock" none 1 2 3 0 0 0 1 2 3 (by decide) (by decide)

/-- C4 counterexample: with the population `[tAex (day 1), tBex (day 5)]` and
a timeframe cutoff of day 3, the published date-range start is day 5 — the
earliest date of the post-filter population — whereas the earliest activity
date of the pre-filter sorted list is day 1.  Filtering therefore does change
`dateRange`, contradicting the claim. -/
theorem dateRange_prefilter_counterexample :
    (calculateSummary [] (applyFilters "" (some 3) [tAex, tBex])).map
        (·.dateRangeStart) = some (some 5) ∧
    (sortTrades [tAex, tBex]).head?.map (·.ActivityDate) = some 1 := by
  constructor
  · have h1 : applyFilters "" (some 3) [tAex, tBex] = [tBex] := rfl
    rw [h1]
    have hne : ([tBex] : List Trade) ≠ [] := by decide
    simp only [calculateSummary, if_neg hne, matchPass]
    rw [sortTrades_of_sorted (by decide)]
    simp only [List.foldl]
    simp only [processTrade, tradeKey, initState, tBex]
    simp only [String.reduceEq, reduceIte, List.nil_append]
    norm_num
  · rw [sortTrades_of_sorted (by decide)]
    rfl

/-- The stable sort leaves the activity dates pairwise ordered. -/
theorem sortTrades_pairwise (ts : List Trade) :
    (sortTrades ts).Pairwise (fun a b => a.ActivityDate ≤ b.ActivityDate) := by
  have h := @List.sorted_mergeSort Trade
    (fun a b => decide (a.ActivityDate ≤ b.ActivityDate))
    (fun a b c hab hbc => by
      simp only [decide_eq_true_eq] at hab hbc ⊢
      omega)
    (fun a b => by
      simp only [Bool.or_eq_true, decide_eq_true_eq]
      omega) ts
  exact h.imp (fun hab => by simpa using hab)

/-- Membership in the sorted list is membership in the input. -/
theorem mem_sortTrades {u : Trade} {ts : List Trade} :
    u ∈ sortTrades ts ↔ u ∈ ts := by
  simp [sortTrades, List.mem_mergeSort]

/-- The head of a date-sorted list carries the minimal activity date. -/
theorem head_is_min {l : List Trade}
    (hp : l.Pairwise (fun a b => a.ActivityDate ≤ b.ActivityDate))
    {t : Trade} (hh : l.head? = some t) :
    ∀ u ∈ l, t.ActivityDate ≤ u.ActivityDate := by
  cases l with
  | nil => cases hh
  | cons a l =>
    have ha : a = t := by simpa using hh
    subst ha
    intro u hu
    rcases List.mem_cons.mp hu with h | h
    · rw [h]
    · exact (List.pairwise_cons.mp hp).1 u h

/-- The last element of a date-sorted list carries the maximal activity
date. -/
theorem getLast_is_max {l : List Trade}
    (hp : l.Pairwise (fun a b => a.ActivityDate ≤ b.ActivityDate))
    {t : Trade} (hl : l.getLast? = some t) :
    ∀ u ∈ l, u.ActivityDate ≤ t.ActivityDate := by
  induction l with
  | nil => cases hl
  | cons a l ih =>
    cases l with
    | nil =>
      have ha : a = t := by simpa using hl
      subst ha
      intro u hu
      have hua : u = a := by simpa using hu
      rw [hua]
    | cons b l' =>
      rw [List.getLast?_cons_cons] at hl
      intro u hu
      have hmem : t ∈ b :: l' := by
        rcases List.getLast?_eq_some_iff.mp hl with ⟨ys, hys⟩
        rw [hys]
        exact List.mem_append_right ys (by simp)
      rcases List.mem_cons.mp hu with rfl | hu'
      · exact (List.pairwise_cons.mp hp).1 t hmem
      · exact ih (List.pairwise_cons.mp hp).2 hl u hu'

/-- C4 (amended): the published date range is the earliest and latest
activity date of the post-filter, pre-matching population (still not derived
from the closed-trade list); filtering the population can therefore change
the date range. -/
theorem dateRange_is_postfilter_extrema (fb : List (String × Rat)) (fs : String)
    (cutoff : Option Int) (ts : List Trade) (s : Summary)
    (h : calculateSummary fb (applyFilters fs cutoff ts) = some s) :
    (∃ dS, s.dateRangeStart = some dS ∧
      (∃ u ∈ applyFilters fs cutoff ts, u.ActivityDate = dS) ∧
      ∀ u ∈ applyFilters fs cutoff ts, dS ≤ u.ActivityDate) ∧
    (∃ dE, s.dateRangeEnd = some dE ∧
      (∃ u ∈ applyFilters fs cutoff ts, u.ActivityDate = dE) ∧
      ∀ u ∈ applyFilters fs cutoff ts, u.ActivityDate ≤ dE) := by
  by_cases hne : applyFilters fs cutoff ts = []
  · rw [hne] at h
    exact absurd h (by simp [calculateSummary])
  · simp only [calculateSummary, if_neg hne, Option.some.injEq] at h
    subst h
    have hp := sortTrades_pairwise (applyFilters fs cutoff ts)
    have hsne : sortTrades (applyFilters fs cutoff ts) ≠ [] := by
      intro hnil
      apply hne
      have hperm := List.mergeSort_perm (applyFilters fs cutoff ts)
        (fun a b => decide (a.ActivityDate ≤ b.ActivityDate))
      rw [sortTrades] at hnil
      rw [hnil] at hperm
      exact hperm.symm.eq_nil
    obtain ⟨t0, ht0⟩ : ∃ t0, (sortTrades (applyFilters fs cutoff ts)).head? = some t0 := by
      cases hsp : sortTrades (applyFilters fs cutoff ts) with
      | nil => exact absurd hsp hsne
      | cons x xs => exact ⟨x, rfl⟩
    obtain ⟨t1, ht1⟩ : ∃ t1, (sortTrades (applyFilters fs cutoff ts)).getLast? = some t1 := by
      cases hsp : sortTrades (applyFilters fs cutoff ts) with
      | nil => exact absurd hsp hsne
      | cons x xs => exact ⟨(x :: xs).getLast (by simp), List.getLast?_eq_getLast _ _⟩
    have ht0m : t0 ∈ sortTrades (applyFilters fs cutoff ts) := by
      cases hsp : sortTrades (applyFilters fs cutoff ts) with
      | nil => exact absurd hsp hsne
      | cons x xs =>
        rw [hsp] at ht0
        have hx : x = t0 := by simpa using ht0
        rw [← hx]
        exact List.mem_cons_self x xs
    have ht1m : t1 ∈ sortTrades (applyFilters fs cutoff ts) := by
      rcases List.getLast?_eq_some_iff.mp ht1 with ⟨ys, hys⟩
      rw [hys]
      exact List.mem_append_right ys (by simp)
    constructor
    · refine ⟨t0.ActivityDate, ?_, ?_, ?_⟩
      · show ((sortTrades (applyFilters fs cutoff ts)).head?.map (·.ActivityDate)) = _
        rw [ht0]
        rfl
      · exact ⟨t0, mem_sortTrades.mp ht0m, rfl⟩
      · intro u hu
        exact head_is_min hp ht0 u (mem_sortTrades.mpr hu)
    · refine ⟨t1.ActivityDate, ?_, ?_, ?_⟩
      · show ((sortTrades (applyFilters fs cutoff ts)).getLast?.map (·.ActivityDate)) = _
        rw [ht1]
        rfl
      · exact ⟨t1, mem_sortTrades.mp ht1m, rfl⟩
      · intro u hu
        exact getLast_is_max hp ht1 u (mem_sortTrades.mpr hu)

/-- C4 witness: the amended date-range clause evaluated on the unfiltered
single-Buy population `[tAex]`. -/
theorem dateRange_is_postfilter_extrema_witness :
    (∃ dS, exSummaryA.dateRangeStart = some dS ∧
      (∃ u ∈ applyFilters "" none [tAex], u.ActivityDate = dS) ∧
      ∀ u ∈ applyFilters "" none [tAex], dS ≤ u.ActivityDate) ∧
    (∃ dE, exSummaryA.dateRangeEnd = some dE ∧
      (∃ u ∈ applyFilters "" none [tAex], u.ActivityDate = dE) ∧
      ∀ u ∈ applyFilters "" none [tAex], u.ActivityDate ≤ dE) :=
  dateRange_is_postfilter_extrema [] "" none [tAex] exSummaryA (by
    have happ : applyFilters "" none [tAex] = [tAex] := rfl
    rw [happ]
    have hne : ([tAex] : List Trade) ≠ [] := by decide
    simp only [calculateSummary, if_neg hne, matchPass]
    rw [sortTrades_of_sorted (by decide)]
    simp only [List.foldl]
    simp only [processTrade, tradeKey, initState, tAex]
    simp only [String.reduceEq, reduceIte, List.nil_append]
    norm_num [exSummaryA, groupByJS, keysInOrder, insertKeyJS])

end TraderSync
